import Mathlib

/-!
# Verification of the hat-backup chunk-aggregating blob store

A shallow embedding of `src/blob/mod.rs`: the `ChunkRef` codec
(`populate_msg` / `read_msg`), the aggregating `Store` actor
(`Store::new`, `flush`, `maybe_flush`, `handle`), and — modelled from
the spec, since `mod index` is not part of the sources — the blob
index.  Bytes are `List Nat`, `usize` is `Nat` (with the `as i64` /
`as usize` casts made explicit where the codec performs them), and
callbacks are modelled as emitted events carrying the identity of the
callback and the `ChunkRef` it is invoked with.
-/

namespace HatBackup

/-- Chunk kind, from `enum Kind { TreeBranch = 1, TreeLeaf = 2 }`. -/
inductive Kind where
  | TreeBranch
  | TreeLeaf
  deriving DecidableEq, Repr

/-- Rust `struct ChunkRef`: `blob_id: Vec<u8>`, `offset: usize`, `length: usize`, `kind: Kind`. -/
structure ChunkRef where
  blob_id : List Nat
  offset : Nat
  length : Nat
  kind : Kind
  deriving DecidableEq, Repr

/-- The reinterpretation, two of complement, performed by the Rust cast
`usize as i64` (for a `usize` value, i.e. one below `2^64`). -/
def usizeAsI64 (x : Nat) : Int :=
  if x % 2 ^ 64 < 2 ^ 63 then ((x % 2 ^ 64 : Nat) : Int)
  else ((x % 2 ^ 64 : Nat) : Int) - 2 ^ 64

/-- The reinterpretation performed by the Rust cast `i64 as usize`. -/
def i64AsUsize (i : Int) : Nat :=
  (i % 2 ^ 64).toNat

/-- The decoded capnp `chunk_ref` message at reader level: the byte-level
packed serialization is the external schema runtime, modelled here at its
contract boundary as a faithful record transport.  The `kind` union is
carried as its discriminant; `kindDisc` values other than the two known
discriminants model an unknown union tag. -/
structure ChunkRefMsg where
  blob_id : List Nat
  offset : Int
  length : Int
  kindDisc : Nat
  deriving DecidableEq, Repr

/-- Discriminant written by `msg.init_kind().set_tree_branch(())`. -/
def treeBranchDisc : Nat := 0

/-- Discriminant written by `msg.init_kind().set_tree_leaf(())`. -/
def treeLeafDisc : Nat := 1

/-- The capnp accessor `get_kind().which()`: fails (`NotInSchema`) on an unknown
union discriminant. -/
def kindWhich (d : Nat) : Except String Kind :=
  if d = treeBranchDisc then .ok Kind.TreeBranch
  else if d = treeLeafDisc then .ok Kind.TreeLeaf
  else .error "NotInSchema"

/-- Method `ChunkRef::populate_msg`: sets `blob_id`, `offset as i64`,
`length as i64` and the `kind` union branch on the message builder. -/
def ChunkRef.populate_msg (c : ChunkRef) : ChunkRefMsg :=
  { blob_id := c.blob_id
    offset := usizeAsI64 c.offset
    length := usizeAsI64 c.length
    kindDisc :=
      match c.kind with
      | Kind.TreeLeaf => treeLeafDisc
      | Kind.TreeBranch => treeBranchDisc }

/-- Method `ChunkRef::read_msg`: reads `blob_id`, `get_offset() as usize`,
`get_length() as usize`, and matches on `get_kind().which()`, propagating
its error. -/
def ChunkRef.read_msg (msg : ChunkRefMsg) : Except String ChunkRef :=
  match kindWhich msg.kindDisc with
  | .error e => .error e
  | .ok k =>
      .ok { blob_id := msg.blob_id
            offset := i64AsUsize msg.offset
            length := i64AsUsize msg.length
            kind := k }

/-- Method `ChunkRef::as_bytes` composed with `ChunkRef::from_bytes`, at the
message level: `as_bytes` builds the message via `populate_msg` and hands
it to the packed writer of the schema runtime; `from_bytes` parses with the
packed reader and applies `read_msg`.  With the runtime modelled as a
faithful transport, the composite is `read_msg ∘ populate_msg`. -/
def ChunkRef.from_bytes_of_as_bytes (c : ChunkRef) : Except String ChunkRef :=
  ChunkRef.read_msg c.populate_msg

/-! ## The storage backend

The backend is an external collaborator (`store/retrieve/delete` over
abstract names, durable on successful `store`), modelled at its contract
boundary as a name-to-bytes association.  `failDelete` is the choice,
made by the environment, of which `delete` calls fail with an I/O error;
`store`/`retrieve` follow the in-memory backend the tests use. -/

/-- Association-list lookup used by the backend model. -/
def lookupB : List (List Nat × List Nat) → List Nat → Option (List Nat)
  | [], _ => none
  | p :: rest, k => if p.1 = k then some p.2 else lookupB rest k

structure Backend where
  data : List (List Nat × List Nat)
  failDelete : List (List Nat)
  deriving DecidableEq, Repr

def Backend.retrieve (b : Backend) (n : List Nat) : Option (List Nat) :=
  lookupB b.data n

def Backend.store (b : Backend) (n d : List Nat) : Backend :=
  { b with data := (n, d) :: b.data }

def Backend.delete (b : Backend) (n : List Nat) : Except Unit Backend :=
  if n ∈ b.failDelete then .error ()
  else .ok { b with data := b.data.filter (fun p => decide (p.1 ≠ n)) }

/-! ## The blob index

`mod index` is code of this repository that is not among the sources;
everything in this section is modelled from the spec (§4.B, §4.C, §6):
rows `(id, name, state, tag)`, a `MAX(id)+1` counter, names that are the
big-endian 64-bit encoding of the id, and the operations `reserve`,
`in_air`, `commit_done`, `recover`, `tag`, `tag_all`, `list_by_tag`,
`delete_by_tag`, `flush`.  Tags are a small closed set, represented
abstractly by `Nat`. -/

/-- Blob lifecycle states (spec §3). -/
inductive BlobState where
  | Reserved
  | InAir
  | Committed
  deriving DecidableEq, Repr

/-- Descriptor `BlobDesc { id, name }`; `id = 0` with an explicit name is the
"unknown" placeholder. -/
structure BlobDesc where
  id : Nat
  name : List Nat
  deriving DecidableEq, Repr

/-- Modelled from the spec: one row of the blob index table. -/
structure BlobRow where
  id : Nat
  name : List Nat
  state : BlobState
  tag : Option Nat
  deriving DecidableEq, Repr

/-- Modelled from the spec: the blob index (`mod index`, absent from the
sources), as its list of rows. -/
structure BlobIndex where
  rows : List BlobRow
  deriving DecidableEq, Repr

/-- Modelled from the spec (§6): the big-endian 64-bit encoding of a blob id. -/
def be8 (n : Nat) : List Nat :=
  [n / 2 ^ 56 % 256, n / 2 ^ 48 % 256, n / 2 ^ 40 % 256, n / 2 ^ 32 % 256,
   n / 2 ^ 24 % 256, n / 2 ^ 16 % 256, n / 2 ^ 8 % 256, n % 256]

/-- The value `MAX(id)` over the table (0 when empty). -/
def maxId (rows : List BlobRow) : Nat :=
  rows.foldr (fun r m => max r.id m) 0

/-- Modelled from the spec: `reserve()` allocates a fresh row in
*Reserved* with id `MAX(id)+1` and the name derived from the id. -/
def BlobIndex.reserve (idx : BlobIndex) : BlobDesc × BlobIndex :=
  let i := maxId idx.rows + 1
  (⟨i, be8 i⟩, ⟨⟨i, be8 i, .Reserved, none⟩ :: idx.rows⟩)

/-- Update the lifecycle state of the row with the given id. -/
def setStateById (rows : List BlobRow) (i : Nat) (st : BlobState) : List BlobRow :=
  rows.map (fun r => if r.id = i then { r with state := st } else r)

/-- Modelled from the spec: `in_air(desc)` transitions *Reserved → In-air*. -/
def BlobIndex.in_air (idx : BlobIndex) (d : BlobDesc) : BlobIndex :=
  ⟨setStateById idx.rows d.id .InAir⟩

/-- Modelled from the spec: `commit_done(desc)` transitions *In-air → Committed*. -/
def BlobIndex.commit_done (idx : BlobIndex) (d : BlobDesc) : BlobIndex :=
  ⟨setStateById idx.rows d.id .Committed⟩

/-- Modelled from the spec: `recover(name)` inserts a *Committed* row for
`name` when absent; idempotent. -/
def BlobIndex.recover (idx : BlobIndex) (name : List Nat) : BlobIndex :=
  if idx.rows.any (fun r => decide (r.name = name)) then idx
  else ⟨⟨maxId idx.rows + 1, name, .Committed, none⟩ :: idx.rows⟩

/-- Modelled from the spec: `tag(desc, t)` sets the tag column; the index
looks rows up by name (the caller passes `id = 0`). -/
def BlobIndex.tag (idx : BlobIndex) (d : BlobDesc) (t : Nat) : BlobIndex :=
  ⟨idx.rows.map (fun r => if r.name = d.name then { r with tag := some t } else r)⟩

/-- Modelled from the spec: `tag_all(t)` sets the tag column on all rows. -/
def BlobIndex.tag_all (idx : BlobIndex) (t : Nat) : BlobIndex :=
  ⟨idx.rows.map (fun r => { r with tag := some t })⟩

/-- Modelled from the spec: `list_by_tag(t)` enumerates the descriptors
of the rows tagged `t`. -/
def BlobIndex.list_by_tag (idx : BlobIndex) (t : Nat) : List BlobDesc :=
  (idx.rows.filter (fun r => decide (r.tag = some t))).map (fun r => ⟨r.id, r.name⟩)

/-- Modelled from the spec: `delete_by_tag(t)` removes the rows tagged `t`. -/
def BlobIndex.delete_by_tag (idx : BlobIndex) (t : Nat) : BlobIndex :=
  ⟨idx.rows.filter (fun r => decide (r.tag ≠ some t))⟩

/-- Modelled from the spec: `flush()` persists buffered metadata writes;
on the in-memory model this is the identity. -/
def BlobIndex.flush (idx : BlobIndex) : BlobIndex := idx

/-! ## The aggregating store

`struct Store<B>` and its message handler, from `src/blob/mod.rs`.
Each Rust callback is identified by a `Nat`; an invocation
`callback.call(ref)` is modelled as the emitted event `(cb, ref)`. -/

/-- Rust `struct Store<B>`: backend handle, blob index, current descriptor,
staging buffer `blob_data`, pending `(ChunkRef, callback)` queue
`blob_refs`, and the configured `max_blob_size`. -/
structure Store where
  backend : Backend
  blob_index : BlobIndex
  blob_desc : BlobDesc
  blob_data : List Nat
  blob_refs : List (Nat × ChunkRef)
  max_blob_size : Nat
  deriving DecidableEq, Repr

/-- Method `Store::reserve_new_blob`: `mem::replace(&mut self.blob_desc,
self.blob_index.reserve())` — returns the retired descriptor. -/
def Store.reserve_new_blob (s : Store) : BlobDesc × Store :=
  let (d, idx) := s.blob_index.reserve
  (s.blob_desc, { s with blob_desc := d, blob_index := idx })

/-- Constructor `Store::new`: build the store with a default descriptor and empty
buffers, then reserve the initial blob. -/
def Store.new (index : BlobIndex) (backend : Backend) (max_blob_size : Nat) : Store :=
  let bs : Store :=
    { backend := backend
      blob_index := index
      blob_desc := ⟨0, []⟩
      blob_data := []
      blob_refs := []
      max_blob_size := max_blob_size }
  bs.reserve_new_blob.2

/-- Method `Store::flush`: no-op on an empty staging buffer; otherwise rotate
the descriptor, swap the buffer out, mark in-air, write through the
backend, mark committed, and drain the callback queue (popping from the
end, i.e. LIFO).  Returns the callback events in firing order. -/
def Store.flush (s : Store) : Store × List (Nat × ChunkRef) :=
  if s.blob_data.length = 0 then (s, [])
  else
    let (old_blob_desc, s1) := s.reserve_new_blob
    let old_blob := s1.blob_data
    let idx1 := (s1.blob_index.in_air old_blob_desc).commit_done old_blob_desc
    let backend1 := s1.backend.store old_blob_desc.name old_blob
    ({ s1 with blob_data := [], blob_index := idx1, backend := backend1, blob_refs := [] },
     s1.blob_refs.reverse)

/-- Method `Store::maybe_flush`: flush exactly when
`blob_data.len() >= max_blob_size`. -/
def Store.maybe_flush (s : Store) : Store × List (Nat × ChunkRef) :=
  if s.blob_data.length ≥ s.max_blob_size then s.flush else (s, [])

/-- The message type `enum Msg`.  `Store` carries the identity of the
callback in place of the boxed closure; strings are byte lists. -/
inductive Msg where
  | Store (chunk : List Nat) (kind : Kind) (cb : Nat)
  | Retrieve (ref : ChunkRef)
  | StoreNamed (name : List Nat) (data : List Nat)
  | RetrieveNamed (name : List Nat)
  | Recover (ref : ChunkRef)
  | Tag (ref : ChunkRef) (tag : Nat)
  | TagAll (tag : Nat)
  | DeleteByTag (tag : Nat)
  | Flush
  deriving DecidableEq, Repr

/-- The reply type `enum Reply`. -/
inductive Reply where
  | StoreOk (ref : ChunkRef)
  | StoreNamedOk (name : List Nat)
  | RetrieveOk (bytes : List Nat)
  | RecoverOk
  | FlushOk
  | Ok
  deriving DecidableEq, Repr

/-- The sub-slice `&blob[off..off+len]` (callers check the bound). -/
def slice (l : List Nat) (off len : Nat) : List Nat :=
  (l.drop off).take len

/-- The `for b in blobs` loop of `Msg::DeleteByTag`: delete each blob
from the backend, stopping at the first backend error.  Deletes executed
before the error persist (the backend is shared), so the loop returns
the backend reached so far together with the error, if any. -/
def deleteLoop (b : Backend) : List BlobDesc → Backend × Option Unit
  | [] => (b, none)
  | d :: rest =>
      match b.delete d.name with
      | .error e => (b, some e)
      | .ok b1 => deleteLoop b1 rest

/-- Method `MsgHandler::handle` for `Store<B>`: one message in, the updated
store, the reply (`Except` for `reply(Err(..))`), and the callback
events fired during the step.  `none` models the aborting `.expect(..)`
failure on a failed backend read or an out-of-range slice. -/
def Store.handle (s : Store) (msg : Msg) :
    Option (Store × Except Unit Reply × List (Nat × ChunkRef)) :=
  match msg with
  | .Store chunk kind cb =>
      if chunk.isEmpty then
        let id : ChunkRef := ⟨[0], 0, 0, kind⟩
        some (s, .ok (.StoreOk id), [(cb, id)])
      else
        let id : ChunkRef := ⟨s.blob_desc.name, s.blob_data.length, chunk.length, kind⟩
        let s1 := { s with blob_refs := s.blob_refs ++ [(cb, id)],
                           blob_data := s.blob_data ++ chunk }
        let fl := s1.maybe_flush
        some (fl.1, .ok (.StoreOk id), fl.2)
  | .Retrieve id =>
      if id.offset = 0 ∧ id.length = 0 then
        some (s, .ok (.RetrieveOk []), [])
      else
        match s.backend.retrieve id.blob_id with
        | none => none
        | some blob =>
            if id.offset + id.length ≤ blob.length then
              some (s, .ok (.RetrieveOk (slice blob id.offset id.length)), [])
            else none
  | .StoreNamed name data =>
      some ({ s with backend := s.backend.store name data }, .ok (.StoreNamedOk name), [])
  | .RetrieveNamed name =>
      match s.backend.retrieve name with
      | none => none
      | some blob => some (s, .ok (.RetrieveOk blob), [])
  | .Recover chunk =>
      if chunk.offset = 0 ∧ chunk.length = 0 then
        some (s, .ok .RecoverOk, [])
      else
        some ({ s with blob_index := s.blob_index.recover chunk.blob_id }, .ok .RecoverOk, [])
  | .Tag chunk t =>
      some ({ s with blob_index := s.blob_index.tag ⟨0, chunk.blob_id⟩ t }, .ok .Ok, [])
  | .TagAll t =>
      some ({ s with blob_index := s.blob_index.tag_all t }, .ok .Ok, [])
  | .DeleteByTag t =>
      let del := deleteLoop s.backend (s.blob_index.list_by_tag t)
      match del.2 with
      | some e => some ({ s with backend := del.1 }, .error e, [])
      | none =>
          some ({ s with backend := del.1,
                         blob_index := s.blob_index.delete_by_tag t },
                .ok .Ok, [])
  | .Flush =>
      let fl := s.flush
      some ({ fl.1 with blob_index := fl.1.blob_index.flush }, .ok .FlushOk, fl.2)

/-- A fresh store over an empty index and an empty backend, as the
tests build it (`Store::new(BlobIndex::new_for_testing(), memory
backend, max_blob_size)`). -/
def initStore (maxSize : Nat) : Store :=
  Store.new ⟨[]⟩ ⟨[], []⟩ maxSize

/-- Run a list of messages, keeping only the final state. -/
def runState (s : Store) : List Msg → Option Store
  | [] => some s
  | m :: rest =>
      match s.handle m with
      | none => none
      | some (s1, _, _) => runState s1 rest

/-- Run a list of messages, returning the final state and, for each
step, the state reached after it, the reply, and the callback events
fired during it. -/
def runTrace (s : Store) :
    List Msg → Option (Store × List (Store × Except Unit Reply × List (Nat × ChunkRef)))
  | [] => some (s, [])
  | m :: rest =>
      match s.handle m with
      | none => none
      | some (s1, r, evs) => (runTrace s1 rest).map (fun p => (p.1, (s1, r, evs) :: p.2))

/-- Submit a sequence of chunks via `Msg::Store`, collecting the
`ChunkRef` of each `StoreOk` reply. -/
def runStores (s : Store) : List (List Nat) → Option (Store × List ChunkRef)
  | [] => some (s, [])
  | c :: cs =>
      match s.handle (Msg.Store c Kind.TreeLeaf 0) with
      | some (s1, .ok (.StoreOk r), _) =>
          (runStores s1 cs).map (fun p => (p.1, r :: p.2))
      | _ => none

/-! ## Codec lemmas and claims C3, C4 -/

theorem i64AsUsize_usizeAsI64 (x : Nat) (h : x < 2 ^ 64) :
    i64AsUsize (usizeAsI64 x) = x := by
  unfold usizeAsI64 i64AsUsize
  rw [Nat.mod_eq_of_lt h]
  split <;> omega

/-- C3: decoding the encoding of any legal `ChunkRef` (any `blob_id`,
`usize` offset and length, either kind) returns it unchanged. -/
theorem c3_chunkref_roundtrip (x : ChunkRef)
    (ho : x.offset < 2 ^ 64) (hl : x.length < 2 ^ 64) :
    ChunkRef.from_bytes_of_as_bytes x = .ok x := by
  obtain ⟨bid, off, len, k⟩ := x
  cases k <;>
    simp [ChunkRef.from_bytes_of_as_bytes, ChunkRef.read_msg, ChunkRef.populate_msg,
      kindWhich, treeBranchDisc, treeLeafDisc, i64AsUsize_usizeAsI64, ho, hl] at *
  <;> exact ⟨i64AsUsize_usizeAsI64 off ho, i64AsUsize_usizeAsI64 len hl⟩

/-- C3 witness: concrete scenario 3 of the spec. -/
theorem c3_chunkref_roundtrip_witness :
    ChunkRef.from_bytes_of_as_bytes ⟨[222, 173], 7, 13, Kind.TreeBranch⟩ =
      .ok ⟨[222, 173], 7, 13, Kind.TreeBranch⟩ :=
  c3_chunkref_roundtrip _ (by norm_num) (by norm_num)

/-- C4 counterexample: a wire record whose `offset` field holds the
negative value `-1` decodes successfully (to offset `2^64 - 1`) instead
of returning an error, refuting the claim that decoding fails on
negative offset/length. -/
theorem c4_negative_offset_decodes_counterexample :
    ChunkRef.read_msg ⟨[1], -1, 1, treeLeafDisc⟩ =
      .ok ⟨[1], 18446744073709551615, 1, Kind.TreeLeaf⟩ := by
  rfl

/-- C4 (amended): decoding a wire record whose offset or length field is
negative does not fail; whenever the kind discriminant is known, it
produces a `ChunkRef` whose offset and length are the fields
reinterpreted as unsigned 64-bit values (two of complement). -/
theorem c4_negative_fields_cast (msg : ChunkRefMsg) (k : Kind)
    (hneg : msg.offset < 0 ∨ msg.length < 0)
    (hk : kindWhich msg.kindDisc = .ok k) :
    ChunkRef.read_msg msg =
      .ok ⟨msg.blob_id, i64AsUsize msg.offset, i64AsUsize msg.length, k⟩ := by
  unfold ChunkRef.read_msg
  rw [hk]

/-- C4 witness: the amended statement applied at the record
`{blob_id := [1], offset := -1, length := 1}`. -/
theorem c4_negative_fields_cast_witness :
    ChunkRef.read_msg ⟨[1], -1, 1, treeLeafDisc⟩ =
      .ok ⟨[1], i64AsUsize (-1), i64AsUsize 1, Kind.TreeLeaf⟩ :=
  c4_negative_fields_cast ⟨[1], -1, 1, treeLeafDisc⟩ Kind.TreeLeaf
    (Or.inl (by norm_num)) (by rfl)

/-! ## Local handler claims C5, C8, C9, C10 -/

/-- C5: storing an empty chunk leaves the whole store state unchanged
(in particular the staging buffer and the pending-callback queue),
replies `StoreOk` with exactly the sentinel
`⟨blob_id = [0x00], offset = 0, length = 0, kind⟩`, invokes the callback
with that same ref, and retrieving the sentinel from any store state —
hence independently of the backend contents — replies `RetrieveOk []`. -/
theorem c5_empty_chunk_sentinel (s s' : Store) (kind : Kind) (cb : Nat) :
    s.handle (Msg.Store [] kind cb) =
      some (s, .ok (.StoreOk ⟨[0], 0, 0, kind⟩), [(cb, ⟨[0], 0, 0, kind⟩)])
    ∧ s'.handle (Msg.Retrieve ⟨[0], 0, 0, kind⟩) =
      some (s', .ok (.RetrieveOk []), []) := by
  constructor
  · simp [Store.handle]
  · simp [Store.handle]

/-- C8: retrieving a non-sentinel `ChunkRef` whose blob is held by the
backend with `offset + length` within bounds replies `RetrieveOk` with
exactly the bytes of the half-open range `[offset, offset + length)`. -/
theorem c8_retrieve_slices_blob (s : Store) (ref : ChunkRef) (blob : List Nat)
    (hnz : ¬(ref.offset = 0 ∧ ref.length = 0))
    (hret : s.backend.retrieve ref.blob_id = some blob)
    (hrange : ref.offset + ref.length ≤ blob.length) :
    s.handle (Msg.Retrieve ref) =
      some (s, .ok (.RetrieveOk ((blob.drop ref.offset).take ref.length)), []) := by
  simp [Store.handle, hnz, hret, hrange, slice]

/-- C8 witness: a backend holding blob `[10, 20, 30]` under name `[5]`;
retrieving offset 1, length 2 yields `[20, 30]`. -/
theorem c8_retrieve_slices_blob_witness :
    Store.handle ⟨⟨[([5], [10, 20, 30])], []⟩, ⟨[]⟩, ⟨0, []⟩, [], [], 4⟩
        (Msg.Retrieve ⟨[5], 1, 2, Kind.TreeLeaf⟩) =
      some (⟨⟨[([5], [10, 20, 30])], []⟩, ⟨[]⟩, ⟨0, []⟩, [], [], 4⟩,
            .ok (.RetrieveOk [20, 30]), []) :=
  c8_retrieve_slices_blob _ _ [10, 20, 30] (by simp) (by rfl) (by norm_num)

/-- C9: `flush()` on an empty staging buffer changes nothing — the
descriptor, buffer, callback queue, index and backend of the resulting
store are those of the input, no events fire. -/
theorem c9_flush_empty_noop (s : Store) (h : s.blob_data = []) :
    s.flush = (s, []) := by
  unfold Store.flush
  rw [h]
  simp

/-- C9 witness: flushing the freshly constructed store is a no-op. -/
theorem c9_flush_empty_noop_witness : (initStore 4).flush = (initStore 4, []) :=
  c9_flush_empty_noop _ (by rfl)

/-- C10: for any `ChunkRef` with `offset = 0` and `length = 0` — whatever
its `blob_id`, sentinel or not — `Retrieve` replies `RetrieveOk []` and
`Recover` replies `RecoverOk`, in both cases leaving the store (backend
and blob index included) unchanged: the emptiness test inspects only
`offset` and `length`. -/
theorem c10_zero_ref_ignores_blob_id (s : Store) (ref : ChunkRef)
    (ho : ref.offset = 0) (hl : ref.length = 0) :
    s.handle (Msg.Retrieve ref) = some (s, .ok (.RetrieveOk []), [])
    ∧ s.handle (Msg.Recover ref) = some (s, .ok .RecoverOk, []) := by
  constructor
  · simp [Store.handle, ho, hl]
  · simp [Store.handle, ho, hl]

/-- C10 witness: a zero-offset zero-length ref with the non-sentinel
`blob_id = [9, 9]`. -/
theorem c10_zero_ref_ignores_blob_id_witness :
    (initStore 1).handle (Msg.Retrieve ⟨[9, 9], 0, 0, Kind.TreeLeaf⟩) =
      some (initStore 1, .ok (.RetrieveOk []), [])
    ∧ (initStore 1).handle (Msg.Recover ⟨[9, 9], 0, 0, Kind.TreeLeaf⟩) =
      some (initStore 1, .ok .RecoverOk, []) :=
  c10_zero_ref_ignores_blob_id (initStore 1) ⟨[9, 9], 0, 0, Kind.TreeLeaf⟩ rfl rfl

/-! ## Unfolding lemmas for `flush` and `handle` -/

theorem flush_of_ne_nil (s : Store) (h : s.blob_data ≠ []) :
    s.flush =
      ({ backend := s.backend.store s.blob_desc.name s.blob_data
         blob_index := ((BlobIndex.mk
             (⟨maxId s.blob_index.rows + 1, be8 (maxId s.blob_index.rows + 1),
               .Reserved, none⟩ :: s.blob_index.rows)).in_air s.blob_desc).commit_done
             s.blob_desc
         blob_desc := ⟨maxId s.blob_index.rows + 1, be8 (maxId s.blob_index.rows + 1)⟩
         blob_data := []
         blob_refs := []
         max_blob_size := s.max_blob_size },
       s.blob_refs.reverse) := by
  have hl : ¬ s.blob_data.length = 0 := by
    simpa [List.length_eq_zero] using h
  unfold Store.flush Store.reserve_new_blob BlobIndex.reserve
  rw [if_neg hl]

theorem flush_fst_blob_data (s : Store) : (s.flush).1.blob_data = [] ∨ s.flush = (s, []) := by
  unfold Store.flush
  split
  · exact Or.inr rfl
  · exact Or.inl rfl

theorem flush_fst_max (s : Store) : (s.flush).1.max_blob_size = s.max_blob_size := by
  unfold Store.flush Store.reserve_new_blob BlobIndex.reserve
  split <;> rfl

theorem handle_flush_eq (s : Store) :
    s.handle Msg.Flush = some ((s.flush).1, .ok .FlushOk, (s.flush).2) := rfl

theorem handle_store_nonempty (s : Store) (a : Nat) (c : List Nat) (k : Kind) (cb : Nat) :
    s.handle (Msg.Store (a :: c) k cb) =
      some (({ s with
                blob_refs := s.blob_refs ++
                  [(cb, ⟨s.blob_desc.name, s.blob_data.length, (a :: c).length, k⟩)]
                blob_data := s.blob_data ++ a :: c } : Store).maybe_flush.1,
            .ok (.StoreOk ⟨s.blob_desc.name, s.blob_data.length, (a :: c).length, k⟩),
            ({ s with
                blob_refs := s.blob_refs ++
                  [(cb, ⟨s.blob_desc.name, s.blob_data.length, (a :: c).length, k⟩)]
                blob_data := s.blob_data ++ a :: c } : Store).maybe_flush.2) := rfl

theorem maybe_flush_cases (u : Store) :
    (u.max_blob_size ≤ u.blob_data.length ∧ u.maybe_flush = u.flush)
    ∨ (u.blob_data.length < u.max_blob_size ∧ u.maybe_flush = (u, [])) := by
  unfold Store.maybe_flush
  by_cases h : u.max_blob_size ≤ u.blob_data.length
  · rw [if_pos h]
    exact Or.inl ⟨h, rfl⟩
  · rw [if_neg h]
    exact Or.inr ⟨not_le.mp h, rfl⟩

/-! ## Claim C6: the flush threshold and the capacity bound -/

/-- C6: `maybe_flush` flushes exactly when the staging size has reached
`max_blob_size`; a `Store` of a non-empty chunk, from a state obeying the
between-requests bound `len(staging) < max_blob_size`, ends with the
staging size below `max_blob_size + len(chunk)` (so the buffer never
exceeds `max_blob_size` plus the just-appended chunk), empties the
buffer whenever the single chunk is at least `max_blob_size` long, and
every message handled from such a state re-establishes the bound
`len(staging) < max_blob_size`. -/
theorem c6_maybe_flush_threshold (s t : Store) (c : List Nat) (kind : Kind) (cb : Nat)
    (hmax : 1 ≤ s.max_blob_size) (hinv : s.blob_data.length < s.max_blob_size)
    (hc : c ≠ []) :
    (t.max_blob_size ≤ t.blob_data.length → t.maybe_flush = t.flush)
    ∧ (t.blob_data.length < t.max_blob_size → t.maybe_flush = (t, []))
    ∧ (∀ s1 r evs, s.handle (Msg.Store c kind cb) = some (s1, r, evs) →
        s1.blob_data.length < s.max_blob_size + c.length
        ∧ (s.max_blob_size ≤ c.length → s1.blob_data = []))
    ∧ (∀ m s1 r evs, s.handle m = some (s1, r, evs) →
        s1.blob_data.length < s1.max_blob_size) := by
  refine ⟨fun h => ?_, fun h => ?_, ?_, ?_⟩
  · unfold Store.maybe_flush
    rw [if_pos h]
  · unfold Store.maybe_flush
    rw [if_neg (not_le.mpr h)]
  · intro s1 r evs h
    cases c with
    | nil => exact absurd rfl hc
    | cons a cs =>
      rw [handle_store_nonempty] at h
      simp only [Option.some.injEq, Prod.mk.injEq] at h
      obtain ⟨hs1, -, -⟩ := h
      rcases maybe_flush_cases ({ s with
          blob_refs := s.blob_refs ++
            [(cb, ⟨s.blob_desc.name, s.blob_data.length, (a :: cs).length, kind⟩)]
          blob_data := s.blob_data ++ a :: cs } : Store) with ⟨hge, heq⟩ | ⟨hlt, heq⟩
      · rw [heq] at hs1
        rw [flush_of_ne_nil _ (by simp)] at hs1
        constructor
        · rw [← hs1]
          simp
        · intro _
          rw [← hs1]
      · rw [heq] at hs1
        simp only [List.length_append] at hlt
        constructor
        · rw [← hs1]
          simp only [List.length_append]
          omega
        · intro hbig
          exfalso
          omega
  · intro m s1 r evs h
    cases m with
    | Store chunk k2 cb2 =>
      cases chunk with
      | nil =>
        simp only [Store.handle, List.isEmpty_nil, if_true] at h
        simp only [Option.some.injEq, Prod.mk.injEq] at h
        obtain ⟨hs1, -, -⟩ := h
        rw [← hs1]
        exact hinv
      | cons a cs =>
        rw [handle_store_nonempty] at h
        simp only [Option.some.injEq, Prod.mk.injEq] at h
        obtain ⟨hs1, -, -⟩ := h
        rcases maybe_flush_cases ({ s with
            blob_refs := s.blob_refs ++
              [(cb2, ⟨s.blob_desc.name, s.blob_data.length, (a :: cs).length, k2⟩)]
            blob_data := s.blob_data ++ a :: cs } : Store) with ⟨hge, heq⟩ | ⟨hlt, heq⟩
        · rw [heq] at hs1
          rw [flush_of_ne_nil _ (by simp)] at hs1
          rw [← hs1]
          simpa using hmax
        · rw [heq] at hs1
          rw [← hs1]
          exact hlt
    | Retrieve ref =>
      simp only [Store.handle] at h
      split at h
      · simp only [Option.some.injEq, Prod.mk.injEq] at h
        obtain ⟨hs1, -, -⟩ := h
        rw [← hs1]
        exact hinv
      · split at h
        · exact absurd h (by simp)
        · split at h
          · simp only [Option.some.injEq, Prod.mk.injEq] at h
            obtain ⟨hs1, -, -⟩ := h
            rw [← hs1]
            exact hinv
          · exact absurd h (by simp)
    | StoreNamed name data =>
      simp only [Store.handle, Option.some.injEq, Prod.mk.injEq] at h
      obtain ⟨hs1, -, -⟩ := h
      rw [← hs1]
      exact hinv
    | RetrieveNamed name =>
      simp only [Store.handle] at h
      split at h
      · exact absurd h (by simp)
      · simp only [Option.some.injEq, Prod.mk.injEq] at h
        obtain ⟨hs1, -, -⟩ := h
        rw [← hs1]
        exact hinv
    | Recover ref =>
      simp only [Store.handle] at h
      split at h <;>
        · simp only [Option.some.injEq, Prod.mk.injEq] at h
          obtain ⟨hs1, -, -⟩ := h
          rw [← hs1]
          exact hinv
    | Tag ref tg =>
      simp only [Store.handle, Option.some.injEq, Prod.mk.injEq] at h
      obtain ⟨hs1, -, -⟩ := h
      rw [← hs1]
      exact hinv
    | TagAll tg =>
      simp only [Store.handle, Option.some.injEq, Prod.mk.injEq] at h
      obtain ⟨hs1, -, -⟩ := h
      rw [← hs1]
      exact hinv
    | DeleteByTag tg =>
      simp only [Store.handle] at h
      split at h <;>
        · simp only [Option.some.injEq, Prod.mk.injEq] at h
          obtain ⟨hs1, -, -⟩ := h
          rw [← hs1]
          exact hinv
    | Flush =>
      rw [handle_flush_eq] at h
      simp only [Option.some.injEq, Prod.mk.injEq] at h
      obtain ⟨hs1, -, -⟩ := h
      rcases flush_fst_blob_data s with hd | heq
      · rw [← hs1, hd]
        simp only [List.length_nil]
        rw [flush_fst_max]
        omega
      · rw [heq] at hs1
        rw [← hs1]
        exact hinv

/-- C6 witness: a fresh store with `max_blob_size = 2` and the chunk `[7]`. -/
theorem c6_maybe_flush_threshold_witness :
    ((initStore 2).max_blob_size ≤ (initStore 2).blob_data.length →
        (initStore 2).maybe_flush = (initStore 2).flush)
    ∧ ((initStore 2).blob_data.length < (initStore 2).max_blob_size →
        (initStore 2).maybe_flush = (initStore 2, []))
    ∧ (∀ s1 r evs,
        (initStore 2).handle (Msg.Store [7] Kind.TreeLeaf 0) = some (s1, r, evs) →
          s1.blob_data.length < (initStore 2).max_blob_size + [7].length
          ∧ ((initStore 2).max_blob_size ≤ [7].length → s1.blob_data = []))
    ∧ (∀ m s1 r evs, (initStore 2).handle m = some (s1, r, evs) →
        s1.blob_data.length < s1.max_blob_size) :=
  c6_maybe_flush_threshold (initStore 2) (initStore 2) [7] Kind.TreeLeaf 0
    (by decide) (by decide) (by decide)

/-! ## Claim C7: `DeleteByTag` error handling -/

theorem lookupB_filter_ne_self (data : List (List Nat × List Nat)) (n : List Nat) :
    lookupB (data.filter (fun p => decide (p.1 ≠ n))) n = none := by
  induction data with
  | nil => rfl
  | cons p rest ih =>
    by_cases h : p.1 = n
    · rw [List.filter_cons_of_neg (by simp [h])]
      exact ih
    · rw [List.filter_cons_of_pos (by simp [h])]
      rw [lookupB, if_neg h]
      exact ih

theorem lookupB_filter_none (data : List (List Nat × List Nat))
    (pr : List Nat × List Nat → Bool) (n : List Nat)
    (h : lookupB data n = none) : lookupB (data.filter pr) n = none := by
  induction data with
  | nil => rfl
  | cons p rest ih =>
    by_cases hp : p.1 = n
    · simp [lookupB, hp] at h
    · rw [lookupB] at h
      rw [if_neg hp] at h
      by_cases hpr : pr p
      · simp only [List.filter, hpr]
        rw [lookupB, if_neg hp]
        exact ih h
      · simp only [List.filter, hpr]
        exact ih h

theorem deleteLoop_failDelete (l : List BlobDesc) (b : Backend) :
    (deleteLoop b l).1.failDelete = b.failDelete := by
  induction l generalizing b with
  | nil => rfl
  | cons d rest ih =>
    by_cases h : d.name ∈ b.failDelete <;>
      simp [deleteLoop, Backend.delete, h, ih]

theorem deleteLoop_preserves_none (l : List BlobDesc) (b : Backend) (n : List Nat)
    (h : b.retrieve n = none) : (deleteLoop b l).1.retrieve n = none := by
  induction l generalizing b with
  | nil => exact h
  | cons d rest ih =>
    by_cases hd : d.name ∈ b.failDelete
    · simpa [deleteLoop, Backend.delete, hd] using h
    · simp only [deleteLoop, Backend.delete, if_neg hd]
      exact ih _ (lookupB_filter_none _ _ _ h)

theorem deleteLoop_snd_none_iff (l : List BlobDesc) (b : Backend) :
    (deleteLoop b l).2 = none ↔ ∀ d ∈ l, d.name ∉ b.failDelete := by
  induction l generalizing b with
  | nil => simp [deleteLoop]
  | cons d rest ih =>
    by_cases hd : d.name ∈ b.failDelete
    · simp [deleteLoop, Backend.delete, hd]
    · simp only [deleteLoop, Backend.delete, if_neg hd]
      rw [ih]
      constructor
      · intro h e he
        rcases List.mem_cons.mp he with rfl | he
        · exact hd
        · exact h e he
      · intro h e he
        exact h e (List.mem_cons_of_mem _ he)

theorem deleteLoop_retrieve_none_all (l : List BlobDesc) (b : Backend)
    (hall : ∀ d ∈ l, d.name ∉ b.failDelete) :
    ∀ d ∈ l, (deleteLoop b l).1.retrieve d.name = none := by
  induction l generalizing b with
  | nil => intro d hd; cases hd
  | cons d0 rest ih =>
    have hd0 : d0.name ∉ b.failDelete := hall d0 (List.mem_cons_self _ _)
    intro d hd
    simp only [deleteLoop, Backend.delete, if_neg hd0]
    rcases List.mem_cons.mp hd with rfl | hd
    · exact deleteLoop_preserves_none _ _ _ (lookupB_filter_ne_self _ _)
    · exact ih ⟨b.data.filter (fun p => decide (p.1 ≠ d0.name)), b.failDelete⟩
        (fun e he => hall e (List.mem_cons_of_mem _ he)) d hd

theorem deleteLoop_retrieve_none_upto (l : List BlobDesc) (b : Backend) :
    ∀ d ∈ l.takeWhile (fun x => decide (x.name ∉ b.failDelete)),
      (deleteLoop b l).1.retrieve d.name = none := by
  induction l generalizing b with
  | nil => intro d hd; cases hd
  | cons d0 rest ih =>
    intro d hd
    by_cases hd0 : d0.name ∈ b.failDelete
    · rw [List.takeWhile_cons_of_neg (by simpa using hd0)] at hd
      cases hd
    · rw [List.takeWhile_cons_of_pos (by simpa using hd0)] at hd
      simp only [deleteLoop, Backend.delete, if_neg hd0]
      rcases List.mem_cons.mp hd with rfl | hd
      · exact deleteLoop_preserves_none _ _ _ (lookupB_filter_ne_self _ _)
      · have hfd : ({ b with data := b.data.filter (fun p => decide (p.1 ≠ d0.name)) }
            : Backend).failDelete = b.failDelete := rfl
        exact ih _ d (by rw [hfd]; exact hd)

theorem handle_deleteByTag_eq (s : Store) (t : Nat) :
    s.handle (Msg.DeleteByTag t) =
      match (deleteLoop s.backend (s.blob_index.list_by_tag t)).2 with
      | some e =>
          some ({ s with backend := (deleteLoop s.backend (s.blob_index.list_by_tag t)).1 },
                .error e, [])
      | none =>
          some ({ s with backend := (deleteLoop s.backend (s.blob_index.list_by_tag t)).1,
                         blob_index := s.blob_index.delete_by_tag t },
                .ok .Ok, []) := rfl

/-- C7: `DeleteByTag(tag)` deletes the blobs listed under `tag` from the
backend before touching any index row, stopping at the first backend
delete error.  If every backend delete succeeds the listed blobs are all
gone from the backend and the rows for the tag are removed; on a backend
error the error is surfaced to the caller through the reply, the whole
blob index — in particular every row for the tag — is left intact, and
only the blobs listed before the first failing one have been deleted. -/
theorem c7_delete_by_tag_error_handling (s : Store) (t : Nat) :
    ∃ s1 reply,
      s.handle (Msg.DeleteByTag t) = some (s1, reply, [])
      ∧ ((∀ d ∈ s.blob_index.list_by_tag t, d.name ∉ s.backend.failDelete) →
          reply = .ok .Ok
          ∧ s1.blob_index = s.blob_index.delete_by_tag t
          ∧ ∀ d ∈ s.blob_index.list_by_tag t, s1.backend.retrieve d.name = none)
      ∧ ((∃ d ∈ s.blob_index.list_by_tag t, d.name ∈ s.backend.failDelete) →
          reply = .error ()
          ∧ s1.blob_index = s.blob_index
          ∧ ∀ d ∈ (s.blob_index.list_by_tag t).takeWhile
              (fun x => decide (x.name ∉ s.backend.failDelete)),
              s1.backend.retrieve d.name = none) := by
  rcases hdel : (deleteLoop s.backend (s.blob_index.list_by_tag t)).2 with _ | e
  · refine ⟨{ s with
        backend := (deleteLoop s.backend (s.blob_index.list_by_tag t)).1
        blob_index := s.blob_index.delete_by_tag t },
      .ok .Ok, ?_, ?_, ?_⟩
    · rw [handle_deleteByTag_eq, hdel]
    · intro hall
      exact ⟨rfl, rfl, deleteLoop_retrieve_none_all _ _ hall⟩
    · intro hex
      exfalso
      obtain ⟨d, hd, hfail⟩ := hex
      exact ((deleteLoop_snd_none_iff _ _).mp hdel d hd) hfail
  · cases e
    refine ⟨{ s with backend := (deleteLoop s.backend (s.blob_index.list_by_tag t)).1 },
            .error (), ?_, ?_, ?_⟩
    · rw [handle_deleteByTag_eq, hdel]
    · intro hall
      exfalso
      rw [(deleteLoop_snd_none_iff _ _).mpr hall] at hdel
      cases hdel
    · intro _
      exact ⟨rfl, rfl, deleteLoop_retrieve_none_upto _ _⟩

/-- C7 witness: a store with one blob tagged `5` whose backend delete
fails. -/
theorem c7_delete_by_tag_error_handling_witness :
    ∃ s1 reply,
      Store.handle ⟨⟨[([1], [42])], [[1]]⟩, ⟨[⟨1, [1], .Committed, some 5⟩]⟩, ⟨2, [2]⟩, [], [], 4⟩
          (Msg.DeleteByTag 5) = some (s1, reply, [])
      ∧ ((∀ d ∈ BlobIndex.list_by_tag ⟨[⟨1, [1], .Committed, some 5⟩]⟩ 5,
            d.name ∉ Backend.failDelete ⟨[([1], [42])], [[1]]⟩) →
          reply = .ok .Ok
          ∧ s1.blob_index = BlobIndex.delete_by_tag ⟨[⟨1, [1], .Committed, some 5⟩]⟩ 5
          ∧ ∀ d ∈ BlobIndex.list_by_tag ⟨[⟨1, [1], .Committed, some 5⟩]⟩ 5,
              s1.backend.retrieve d.name = none)
      ∧ ((∃ d ∈ BlobIndex.list_by_tag ⟨[⟨1, [1], .Committed, some 5⟩]⟩ 5,
            d.name ∈ Backend.failDelete ⟨[([1], [42])], [[1]]⟩) →
          reply = .error ()
          ∧ s1.blob_index = ⟨[⟨1, [1], .Committed, some 5⟩]⟩
          ∧ ∀ d ∈ (BlobIndex.list_by_tag ⟨[⟨1, [1], .Committed, some 5⟩]⟩ 5).takeWhile
              (fun x => decide (x.name ∉ Backend.failDelete ⟨[([1], [42])], [[1]]⟩)),
              s1.backend.retrieve d.name = none) :=
  c7_delete_by_tag_error_handling
    ⟨⟨[([1], [42])], [[1]]⟩, ⟨[⟨1, [1], .Committed, some 5⟩]⟩, ⟨2, [2]⟩, [], [], 4⟩ 5

/-! ## Claim C2: callbacks fire exactly once, after durability -/

/-- The callback a message registers on the pending queue: a `Store` of
a non-empty chunk registers its callback, everything else registers
nothing (the empty-chunk callback is dispatched directly, not queued). -/
def msgCb (m : Msg) : List Nat :=
  match m with
  | .Store c _ cb => if c.isEmpty then [] else [cb]
  | _ => []

/-- Callback identities registered by `Store`s of non-empty chunks. -/
def storeCbIds (msgs : List Msg) : List Nat :=
  (msgs.map msgCb).flatten

/-- The callback identities of the events of one step that carry a
ref of a non-empty chunk (`length ≠ 0` — empty-chunk events carry the
sentinel, whose length is 0). -/
def nonEmptyEvs (evs : List (Nat × ChunkRef)) : List Nat :=
  (evs.filter (fun ev => decide (ev.2.length ≠ 0))).map Prod.fst

/-- All non-empty-chunk callback identities fired along a trace. -/
def firedCbIds (tr : List (Store × Except Unit Reply × List (Nat × ChunkRef))) : List Nat :=
  (tr.map (fun st => nonEmptyEvs st.2.2)).flatten

/-- Queue invariant: every pending entry refers into the current blob
and records a non-zero length, and a non-empty queue means a non-empty
staging buffer. -/
def CbInv (s : Store) : Prop :=
  (∀ p ∈ s.blob_refs, (p : Nat × ChunkRef).2.blob_id = s.blob_desc.name ∧ p.2.length ≠ 0)
  ∧ (s.blob_refs ≠ [] → s.blob_data ≠ [])

theorem retrieve_store_self (b : Backend) (n d : List Nat) :
    (b.store n d).retrieve n = some d := by
  simp [Backend.store, Backend.retrieve, lookupB]

theorem cb_perm_nil (l : List Nat) :
    (nonEmptyEvs [] ++ l).Perm (l ++ ([] : List Nat)) := by
  rw [List.append_nil]
  exact List.Perm.refl l

theorem handle_cbinv (s : Store) (m : Msg) (s1 : Store) (r : Except Unit Reply)
    (evs : List (Nat × ChunkRef)) (hinv : CbInv s)
    (h : s.handle m = some (s1, r, evs)) :
    CbInv s1
    ∧ (∀ ev ∈ evs, (ev : Nat × ChunkRef).2.length ≠ 0 →
        ∃ blob, s1.backend.retrieve ev.2.blob_id = some blob)
    ∧ (nonEmptyEvs evs ++ s1.blob_refs.map Prod.fst).Perm
        (s.blob_refs.map Prod.fst ++ msgCb m)
    ∧ (m = Msg.Flush → s1.blob_refs = []) := by
  obtain ⟨hqual, hqd⟩ := hinv
  cases m with
  | Store chunk k2 cb2 =>
    cases chunk with
    | nil =>
      simp only [Store.handle, List.isEmpty_nil, if_true, Option.some.injEq,
        Prod.mk.injEq] at h
      obtain ⟨hs1, -, hevs⟩ := h
      rw [← hs1, ← hevs]
      refine ⟨⟨hqual, hqd⟩, ?_, ?_, ?_⟩
      · intro ev hev hlen
        rcases List.mem_singleton.mp hev with rfl
        exact absurd rfl hlen
      · exact cb_perm_nil _
      · intro hm
        cases hm
    | cons a cs =>
      rw [handle_store_nonempty] at h
      simp only [Option.some.injEq, Prod.mk.injEq] at h
      obtain ⟨hs1, -, hevs⟩ := h
      rcases maybe_flush_cases ({ s with
          blob_refs := s.blob_refs ++
            [(cb2, ⟨s.blob_desc.name, s.blob_data.length, (a :: cs).length, k2⟩)]
          blob_data := s.blob_data ++ a :: cs } : Store) with ⟨hge, heq⟩ | ⟨hlt, heq⟩
      · rw [heq] at hs1 hevs
        rw [flush_of_ne_nil _ (by simp)] at hs1 hevs
        rw [← hs1, ← hevs]
        refine ⟨⟨(by intro p hp; cases hp), (by intro hc; exact absurd rfl hc)⟩, ?_, ?_, ?_⟩
        · intro ev hev hlen
          refine ⟨s.blob_data ++ a :: cs, ?_⟩
          have hbid : ev.2.blob_id = s.blob_desc.name := by
            rw [List.mem_reverse] at hev
            rcases List.mem_append.mp hev with hev | hev
            · exact (hqual ev hev).1
            · rcases List.mem_singleton.mp hev with rfl
              rfl
          rw [hbid]
          exact retrieve_store_self _ _ _
        · have hall : ∀ ev ∈ (s.blob_refs ++
              [(cb2, (⟨s.blob_desc.name, s.blob_data.length, (a :: cs).length, k2⟩
                : ChunkRef))]).reverse,
              (fun ev => decide ((ev : Nat × ChunkRef).2.length ≠ 0)) ev = true := by
            intro ev hev
            rw [List.mem_reverse] at hev
            rcases List.mem_append.mp hev with hev | hev
            · simpa using (hqual ev hev).2
            · rcases List.mem_singleton.mp hev with rfl
              simp
          simp only [nonEmptyEvs, List.filter_eq_self.mpr hall, List.map_nil,
            List.append_nil, msgCb, List.isEmpty_cons, Bool.false_eq_true, if_false,
            List.map_reverse, List.map_append, List.map_cons]
          exact List.reverse_perm _
        · intro hm
          cases hm
      · rw [heq] at hs1 hevs
        rw [← hs1, ← hevs]
        refine ⟨⟨?_, ?_⟩, ?_, ?_, ?_⟩
        · intro p hp
          rcases List.mem_append.mp hp with hp | hp
          · exact hqual p hp
          · rcases List.mem_singleton.mp hp with rfl
            exact ⟨rfl, by simp⟩
        · intro _
          simp
        · intro ev hev
          cases hev
        · have hmc : msgCb (Msg.Store (a :: cs) k2 cb2) = [cb2] := rfl
          rw [hmc]
          simp only [nonEmptyEvs, List.filter_nil, List.map_nil, List.nil_append,
            List.map_append, List.map_cons]
          exact List.Perm.refl _
        · intro hm
          cases hm
  | Retrieve ref =>
    simp only [Store.handle] at h
    split at h
    · simp only [Option.some.injEq, Prod.mk.injEq] at h
      obtain ⟨hs1, -, hevs⟩ := h
      rw [← hs1, ← hevs]
      exact ⟨⟨hqual, hqd⟩, (by intro ev hev; cases hev), cb_perm_nil _,
        (by intro hm; cases hm)⟩
    · split at h
      · exact absurd h (by simp)
      · split at h
        · simp only [Option.some.injEq, Prod.mk.injEq] at h
          obtain ⟨hs1, -, hevs⟩ := h
          rw [← hs1, ← hevs]
          exact ⟨⟨hqual, hqd⟩, (by intro ev hev; cases hev), cb_perm_nil _,
            (by intro hm; cases hm)⟩
        · exact absurd h (by simp)
  | StoreNamed name data =>
    simp only [Store.handle, Option.some.injEq, Prod.mk.injEq] at h
    obtain ⟨hs1, -, hevs⟩ := h
    rw [← hs1, ← hevs]
    exact ⟨⟨hqual, hqd⟩, (by intro ev hev; cases hev), cb_perm_nil _,
      (by intro hm; cases hm)⟩
  | RetrieveNamed name =>
    simp only [Store.handle] at h
    split at h
    · exact absurd h (by simp)
    · simp only [Option.some.injEq, Prod.mk.injEq] at h
      obtain ⟨hs1, -, hevs⟩ := h
      rw [← hs1, ← hevs]
      exact ⟨⟨hqual, hqd⟩, (by intro ev hev; cases hev), cb_perm_nil _,
        (by intro hm; cases hm)⟩
  | Recover ref =>
    simp only [Store.handle] at h
    split at h <;>
    · simp only [Option.some.injEq, Prod.mk.injEq] at h
      obtain ⟨hs1, -, hevs⟩ := h
      rw [← hs1, ← hevs]
      exact ⟨⟨hqual, hqd⟩, (by intro ev hev; cases hev), cb_perm_nil _,
        (by intro hm; cases hm)⟩
  | Tag ref tg =>
    simp only [Store.handle, Option.some.injEq, Prod.mk.injEq] at h
    obtain ⟨hs1, -, hevs⟩ := h
    rw [← hs1, ← hevs]
    exact ⟨⟨hqual, hqd⟩, (by intro ev hev; cases hev), cb_perm_nil _,
      (by intro hm; cases hm)⟩
  | TagAll tg =>
    simp only [Store.handle, Option.some.injEq, Prod.mk.injEq] at h
    obtain ⟨hs1, -, hevs⟩ := h
    rw [← hs1, ← hevs]
    exact ⟨⟨hqual, hqd⟩, (by intro ev hev; cases hev), cb_perm_nil _,
      (by intro hm; cases hm)⟩
  | DeleteByTag tg =>
    simp only [Store.handle] at h
    split at h <;>
    · simp only [Option.some.injEq, Prod.mk.injEq] at h
      obtain ⟨hs1, -, hevs⟩ := h
      rw [← hs1, ← hevs]
      exact ⟨⟨hqual, hqd⟩, (by intro ev hev; cases hev), cb_perm_nil _,
        (by intro hm; cases hm)⟩
  | Flush =>
    rw [handle_flush_eq] at h
    simp only [Option.some.injEq, Prod.mk.injEq] at h
    obtain ⟨hs1, -, hevs⟩ := h
    by_cases hd : s.blob_data = []
    · have hrefs : s.blob_refs = [] := by
        by_contra hne
        exact (hqd hne) hd
      rw [c9_flush_empty_noop s hd] at hs1 hevs
      rw [← hs1, ← hevs]
      exact ⟨⟨hqual, hqd⟩, (by intro ev hev; cases hev), cb_perm_nil _, fun _ => hrefs⟩
    · rw [flush_of_ne_nil s hd] at hs1 hevs
      rw [← hs1, ← hevs]
      refine ⟨⟨(by intro p hp; cases hp), (by intro hc; exact absurd rfl hc)⟩, ?_, ?_, ?_⟩
      · intro ev hev hlen
        refine ⟨s.blob_data, ?_⟩
        rw [List.mem_reverse] at hev
        rw [(hqual ev hev).1]
        exact retrieve_store_self _ _ _
      · have hall : ∀ ev ∈ s.blob_refs.reverse,
            (fun ev => decide ((ev : Nat × ChunkRef).2.length ≠ 0)) ev = true := by
          intro ev hev
          rw [List.mem_reverse] at hev
          simpa using (hqual ev hev).2
        simp only [nonEmptyEvs, List.filter_eq_self.mpr hall, List.map_nil,
          List.append_nil, msgCb]
        rw [List.map_reverse]
        exact List.reverse_perm _
      · intro _
        rfl

theorem runTrace_cbinv (msgs : List Msg) (s : Store) (hinv : CbInv s) (sF : Store)
    (tr : List (Store × Except Unit Reply × List (Nat × ChunkRef)))
    (h : runTrace s msgs = some (sF, tr)) :
    CbInv sF
    ∧ (∀ step ∈ tr, ∀ ev ∈ (step.2.2 : List (Nat × ChunkRef)), ev.2.length ≠ 0 →
        ∃ blob, step.1.backend.retrieve ev.2.blob_id = some blob)
    ∧ (firedCbIds tr ++ sF.blob_refs.map Prod.fst).Perm
        (s.blob_refs.map Prod.fst ++ storeCbIds msgs)
    ∧ (msgs.getLast? = some Msg.Flush → sF.blob_refs = []) := by
  induction msgs generalizing s sF tr with
  | nil =>
    simp only [runTrace, Option.some.injEq, Prod.mk.injEq] at h
    obtain ⟨hs, ht⟩ := h
    subst hs
    subst ht
    refine ⟨hinv, (by intro st hst; cases hst), ?_, ?_⟩
    · have he : storeCbIds ([] : List Msg) = [] := rfl
      rw [he, List.append_nil]
      exact List.Perm.refl _
    · intro hlast
      exact absurd hlast (by simp)
  | cons m rest ih =>
    simp only [runTrace] at h
    cases hh : s.handle m with
    | none =>
      rw [hh] at h
      cases h
    | some out =>
      obtain ⟨s1, r, evs⟩ := out
      rw [hh] at h
      dsimp only at h
      cases hrt : runTrace s1 rest with
      | none =>
        rw [hrt] at h
        cases h
      | some p =>
        obtain ⟨sF', tr'⟩ := p
        rw [hrt] at h
        simp only [Option.map_some', Option.some.injEq, Prod.mk.injEq] at h
        obtain ⟨hsF, htr⟩ := h
        subst hsF
        subst htr
        have step := handle_cbinv s m s1 r evs hinv hh
        have ihres := ih s1 step.1 sF' tr' hrt
        refine ⟨ihres.1, ?_, ?_, ?_⟩
        · intro st hst
          rcases List.mem_cons.mp hst with rfl | hst
          · exact step.2.1
          · exact ihres.2.1 st hst
        · have e1 : firedCbIds ((s1, r, evs) :: tr') = nonEmptyEvs evs ++ firedCbIds tr' := rfl
          have e2 : storeCbIds (m :: rest) = msgCb m ++ storeCbIds rest := rfl
          rw [e1, e2, List.append_assoc]
          have goal1 : (nonEmptyEvs evs ++
              (firedCbIds tr' ++ sF'.blob_refs.map Prod.fst)).Perm
              (nonEmptyEvs evs ++ (s1.blob_refs.map Prod.fst ++ storeCbIds rest)) :=
            List.Perm.append_left _ ihres.2.2.1
          have goal2 : (nonEmptyEvs evs ++
              (s1.blob_refs.map Prod.fst ++ storeCbIds rest)).Perm
              (s.blob_refs.map Prod.fst ++ (msgCb m ++ storeCbIds rest)) := by
            rw [← List.append_assoc, ← List.append_assoc]
            exact List.Perm.append_right _ step.2.2.1
          exact goal1.trans goal2
        · cases rest with
          | nil =>
            intro hlast
            have hm : m = Msg.Flush := by
              simpa using hlast
            simp only [runTrace, Option.some.injEq, Prod.mk.injEq] at hrt
            obtain ⟨hs1F, -⟩ := hrt
            rw [← hs1F]
            exact step.2.2.2 hm
          | cons m2 rest2 =>
            intro hlast
            rw [List.getLast?_cons_cons] at hlast
            exact ihres.2.2.2 hlast

/-- C2: over any run of the store ending in a `Flush`, with the
callbacks of the `Store` requests pairwise distinct: (i) whenever a
callback carrying the ref of a non-empty chunk fires, the backend — in the
state reached by that very step, i.e. after the blob was stored and
`commit_done` ran — successfully retrieves `ref.blob_id`; and (ii) every
callback registered by a `Store` of a non-empty chunk fires exactly
once. -/
theorem c2_callback_durability_exactly_once (maxSize : Nat) (pre : List Msg) (sF : Store)
    (tr : List (Store × Except Unit Reply × List (Nat × ChunkRef)))
    (hrun : runTrace (initStore maxSize) (pre ++ [Msg.Flush]) = some (sF, tr))
    (hnodup : (storeCbIds (pre ++ [Msg.Flush])).Nodup) :
    (∀ step ∈ tr, ∀ ev ∈ (step.2.2 : List (Nat × ChunkRef)), ev.2.length ≠ 0 →
        ∃ blob, step.1.backend.retrieve ev.2.blob_id = some blob)
    ∧ ∀ cb ∈ storeCbIds (pre ++ [Msg.Flush]), (firedCbIds tr).count cb = 1 := by
  have hinv : CbInv (initStore maxSize) :=
    ⟨(by intro p hp; cases hp), (by intro hc; exact absurd rfl hc)⟩
  obtain ⟨hF, hdur, hperm, hlastp⟩ :=
    runTrace_cbinv (pre ++ [Msg.Flush]) (initStore maxSize) hinv sF tr hrun
  have hrefsF : sF.blob_refs = [] := hlastp (by simp)
  refine ⟨hdur, ?_⟩
  intro cb hcb
  have hinitrefs : (initStore maxSize).blob_refs = [] := rfl
  rw [hrefsF, hinitrefs] at hperm
  simp only [List.map_nil, List.append_nil, List.nil_append] at hperm
  rw [hperm.count_eq]
  exact List.count_eq_one_of_mem hnodup hcb

/-- The state reached after `Store [7]` (which, with `max_blob_size = 1`,
flushes immediately) and after the subsequent no-op `Flush`. -/
def c2StateEx : Store :=
  ⟨⟨[([0, 0, 0, 0, 0, 0, 0, 1], [7])], []⟩,
   ⟨[⟨2, [0, 0, 0, 0, 0, 0, 0, 2], .Reserved, none⟩,
     ⟨1, [0, 0, 0, 0, 0, 0, 0, 1], .Committed, none⟩]⟩,
   ⟨2, [0, 0, 0, 0, 0, 0, 0, 2]⟩, [], [], 1⟩

/-- The trace of `[Store [7] cb=3, Flush]` from `initStore 1`. -/
def c2TraceEx : List (Store × Except Unit Reply × List (Nat × ChunkRef)) :=
  [(c2StateEx, .ok (.StoreOk ⟨[0, 0, 0, 0, 0, 0, 0, 1], 0, 1, Kind.TreeLeaf⟩),
      [(3, ⟨[0, 0, 0, 0, 0, 0, 0, 1], 0, 1, Kind.TreeLeaf⟩)]),
   (c2StateEx, .ok .FlushOk, [])]

/-- C2 witness: one non-empty `Store` (callback 3) followed by `Flush`
under `max_blob_size = 1`. -/
theorem c2_callback_durability_exactly_once_witness :
    (∀ step ∈ c2TraceEx, ∀ ev ∈ (step.2.2 : List (Nat × ChunkRef)), ev.2.length ≠ 0 →
        ∃ blob, step.1.backend.retrieve ev.2.blob_id = some blob)
    ∧ ∀ cb ∈ storeCbIds ([Msg.Store [7] Kind.TreeLeaf 3] ++ [Msg.Flush]),
        (firedCbIds c2TraceEx).count cb = 1 :=
  c2_callback_durability_exactly_once 1 [Msg.Store [7] Kind.TreeLeaf 3] c2StateEx c2TraceEx
    (by rfl) (by decide)

/-! ## Claim C1: identity after flush

The simulation invariant: every `ChunkRef` handed out so far is *good* —
it is the empty-chunk sentinel, or it points at a still-staged range of
the current blob, or it points at a committed range in the backend.
`FreshInv` ties the descriptor, index and backend names together so that
a freshly reserved blob name can never collide with a name already
stored in the backend. -/

def Good (s : Store) (r : ChunkRef) (c : List Nat) : Prop :=
  (c = [] ∧ r.offset = 0 ∧ r.length = 0)
  ∨ (c ≠ [] ∧ r.blob_id = s.blob_desc.name ∧ r.length = c.length
      ∧ r.offset + r.length ≤ s.blob_data.length ∧ slice s.blob_data r.offset r.length = c)
  ∨ (c ≠ [] ∧ r.length = c.length ∧ ∃ blob, s.backend.retrieve r.blob_id = some blob
      ∧ r.offset + r.length ≤ blob.length ∧ slice blob r.offset r.length = c)

def FreshInv (s : Store) : Prop :=
  1 ≤ s.blob_desc.id
  ∧ s.blob_desc.name = be8 s.blob_desc.id
  ∧ maxId s.blob_index.rows = s.blob_desc.id
  ∧ ∀ n d, (n, d) ∈ s.backend.data → ∃ j, 1 ≤ j ∧ j < s.blob_desc.id ∧ n = be8 j

theorem be8_inj {a b : Nat} (ha : a < 2 ^ 64) (hb : b < 2 ^ 64) (h : be8 a = be8 b) :
    a = b := by
  unfold be8 at h
  simp only [List.cons.injEq, and_true] at h
  obtain ⟨e1, e2, e3, e4, e5, e6, e7, e8⟩ := h
  omega

theorem slice_append_left (d c : List Nat) (off len : Nat) (h : off + len ≤ d.length) :
    slice (d ++ c) off len = slice d off len := by
  unfold slice
  rw [List.drop_append_of_le_length (by omega),
    List.take_append_of_le_length (by simp; omega)]

theorem slice_append_self (d c : List Nat) : slice (d ++ c) d.length c.length = c := by
  unfold slice
  rw [List.drop_left, List.take_length c]

theorem maxId_setStateById (rows : List BlobRow) (i : Nat) (st : BlobState) :
    maxId (setStateById rows i st) = maxId rows := by
  induction rows with
  | nil => rfl
  | cons rr rest ih =>
    unfold maxId setStateById
    simp only [List.map_cons, List.foldr_cons]
    have h1 : (if rr.id = i then { rr with state := st } else rr).id = rr.id := by
      split <;> rfl
    rw [h1]
    unfold maxId setStateById at ih
    rw [ih]

theorem lookupB_mem (data : List (List Nat × List Nat)) (n d : List Nat)
    (h : lookupB data n = some d) : (n, d) ∈ data := by
  induction data with
  | nil => cases h
  | cons p rest ih =>
    obtain ⟨p1, p2⟩ := p
    rw [lookupB] at h
    by_cases hp : p1 = n
    · rw [if_pos hp] at h
      injection h with h
      subst hp
      subst h
      exact List.mem_cons_self _ _
    · rw [if_neg hp] at h
      exact List.mem_cons_of_mem _ (ih h)

theorem retrieve_store_other (b : Backend) (n d m : List Nat) (h : m ≠ n) :
    (b.store n d).retrieve m = b.retrieve m := by
  unfold Backend.store Backend.retrieve
  rw [lookupB, if_neg (fun hh => h hh.symm)]

theorem good_flush (s : Store) (hne : s.blob_data ≠ []) (hfresh : FreshInv s)
    (hbound : s.blob_desc.id < 2 ^ 64) (r : ChunkRef) (c : List Nat)
    (hg : Good s r c) : Good (s.flush).1 r c := by
  obtain ⟨hid1, hname, hmax, hback⟩ := hfresh
  rw [flush_of_ne_nil s hne]
  rcases hg with h1 | ⟨hcne, hbid, hlen, hrange, hslice⟩
    | ⟨hcne, hlen, blob, hret, hrange, hslice⟩
  · exact Or.inl h1
  · refine Or.inr (Or.inr ⟨hcne, hlen, s.blob_data, ?_, hrange, hslice⟩)
    rw [hbid]
    exact retrieve_store_self _ _ _
  · refine Or.inr (Or.inr ⟨hcne, hlen, blob, ?_, hrange, hslice⟩)
    have hmem := lookupB_mem _ _ _ hret
    obtain ⟨j, hj1, hjlt, hjn⟩ := hback _ _ hmem
    have hnen : r.blob_id ≠ s.blob_desc.name := by
      rw [hjn, hname]
      intro hcon
      have := be8_inj (by omega) hbound hcon
      omega
    rw [retrieve_store_other _ _ _ _ hnen]
    exact hret

theorem freshInv_flush (s : Store) (hne : s.blob_data ≠ []) (hfresh : FreshInv s) :
    FreshInv (s.flush).1 ∧ (s.flush).1.blob_desc.id = s.blob_desc.id + 1 := by
  obtain ⟨hid1, hname, hmax, hback⟩ := hfresh
  rw [flush_of_ne_nil s hne]
  dsimp only
  constructor
  · refine ⟨by simp [hmax], by rw [hmax], ?_, ?_⟩
    · show maxId (setStateById (setStateById _ _ _) _ _) = maxId s.blob_index.rows + 1
      rw [maxId_setStateById, maxId_setStateById]
      show max (maxId s.blob_index.rows + 1) (maxId s.blob_index.rows) = _
      omega
    · intro n d hmem
      rcases List.mem_cons.mp hmem with heq | hmem
      · refine ⟨s.blob_desc.id, hid1,
          (by show s.blob_desc.id < maxId s.blob_index.rows + 1; omega), ?_⟩
        have : n = s.blob_desc.name := congrArg Prod.fst heq
        rw [this, hname]
      · obtain ⟨j, hj1, hjlt, hjn⟩ := hback _ _ hmem
        exact ⟨j, hj1, (by show j < maxId s.blob_index.rows + 1; omega), hjn⟩
  · rw [hmax]

theorem good_append (s : Store) (r : ChunkRef) (c : List Nat) (hg : Good s r c)
    (c0 : List Nat) (q : List (Nat × ChunkRef)) :
    Good { s with blob_refs := q, blob_data := s.blob_data ++ c0 } r c := by
  rcases hg with h1 | ⟨hcne, hbid, hlen, hrange, hslice⟩ | h3
  · exact Or.inl h1
  · refine Or.inr (Or.inl ⟨hcne, hbid, hlen, ?_, ?_⟩)
    · show r.offset + r.length ≤ (s.blob_data ++ c0).length
      rw [List.length_append]
      omega
    · show slice (s.blob_data ++ c0) r.offset r.length = c
      rw [slice_append_left _ _ _ _ hrange]
      exact hslice
  · exact Or.inr (Or.inr h3)

theorem handle_store_good (s : Store) (c : List Nat)
    (hfresh : FreshInv s) (hbound : s.blob_desc.id + 1 < 2 ^ 64) :
    ∃ s1 r evs, s.handle (Msg.Store c Kind.TreeLeaf 0) = some (s1, .ok (.StoreOk r), evs)
      ∧ FreshInv s1 ∧ s1.blob_desc.id ≤ s.blob_desc.id + 1
      ∧ Good s1 r c
      ∧ ∀ r' c', Good s r' c' → Good s1 r' c' := by
  cases c with
  | nil =>
    refine ⟨s, ⟨[0], 0, 0, Kind.TreeLeaf⟩, [(0, ⟨[0], 0, 0, Kind.TreeLeaf⟩)],
      by simp [Store.handle], hfresh, Nat.le_succ _, Or.inl ⟨rfl, rfl, rfl⟩,
      fun r' c' hg => hg⟩
  | cons a cs =>
    rw [handle_store_nonempty]
    set u : Store := { s with
        blob_refs := s.blob_refs ++
          [(0, ⟨s.blob_desc.name, s.blob_data.length, (a :: cs).length, Kind.TreeLeaf⟩)]
        blob_data := s.blob_data ++ a :: cs } with hu
    have huid : u.blob_desc.id = s.blob_desc.id := rfl
    have hufresh : FreshInv u := hfresh
    have hugood : Good u ⟨s.blob_desc.name, s.blob_data.length, (a :: cs).length,
        Kind.TreeLeaf⟩ (a :: cs) := by
      refine Or.inr (Or.inl ⟨by simp, rfl, rfl, ?_, ?_⟩)
      · show s.blob_data.length + (a :: cs).length ≤ u.blob_data.length
        show s.blob_data.length + (a :: cs).length ≤ (s.blob_data ++ a :: cs).length
        rw [List.length_append]
      · show slice u.blob_data s.blob_data.length (a :: cs).length = a :: cs
        exact slice_append_self _ _
    have huprop : ∀ r' c', Good s r' c' → Good u r' c' := fun r' c' hg =>
      good_append s r' c' hg (a :: cs) _
    rcases maybe_flush_cases u with ⟨hge, heq⟩ | ⟨hlt, heq⟩
    · rw [heq]
      have hune : u.blob_data ≠ [] := by simp [hu]
      have hufl := freshInv_flush u hune hufresh
      refine ⟨(u.flush).1, _, (u.flush).2, rfl, hufl.1, ?_, ?_, ?_⟩
      · rw [hufl.2, huid]
      · exact good_flush u hune hufresh (by omega)
          _ _ hugood
      · intro r' c' hg
        exact good_flush u hune hufresh (by omega) _ _ (huprop r' c' hg)
    · rw [heq]
      exact ⟨u, _, [], rfl, hufresh, Nat.le_succ _, hugood, huprop⟩

theorem runStores_cons (s : Store) (c : List Nat) (cs : List (List Nat)) (s1 : Store)
    (r : ChunkRef) (evs : List (Nat × ChunkRef))
    (hh : s.handle (Msg.Store c Kind.TreeLeaf 0) = some (s1, .ok (.StoreOk r), evs)) :
    runStores s (c :: cs) = (runStores s1 cs).map (fun p => (p.1, r :: p.2)) := by
  show (match s.handle (Msg.Store c Kind.TreeLeaf 0) with
      | some (s2, Except.ok (Reply.StoreOk r2), _) =>
          (runStores s2 cs).map (fun p => (p.1, r2 :: p.2))
      | _ => none) = (runStores s1 cs).map (fun p => (p.1, r :: p.2))
  rw [hh]

theorem runStores_good (cs : List (List Nat)) (s : Store)
    (acc : List (ChunkRef × List Nat))
    (hfresh : FreshInv s) (hacc : ∀ p ∈ acc, Good s p.1 p.2)
    (hbound : s.blob_desc.id + cs.length + 1 ≤ 2 ^ 64) :
    ∃ s1 refs, runStores s cs = some (s1, refs)
      ∧ FreshInv s1 ∧ s1.blob_desc.id ≤ s.blob_desc.id + cs.length
      ∧ (∀ p ∈ acc, Good s1 p.1 p.2)
      ∧ List.Forall₂ (fun r c => Good s1 r c) refs cs := by
  induction cs generalizing s acc with
  | nil =>
    exact ⟨s, [], rfl, hfresh, Nat.le_refl _, hacc, List.Forall₂.nil⟩
  | cons c cs' ih =>
    obtain ⟨s1, r, evs, hh, hfresh1, hid1, hgoodr, hprop⟩ :=
      handle_store_good s c hfresh (by simp at hbound; omega)
    obtain ⟨sF, refs, hrun, hfreshF, hidF, haccF, hfa⟩ :=
      ih s1 ((r, c) :: acc) hfresh1
        (by
          intro p hp
          rcases List.mem_cons.mp hp with rfl | hp
          · exact hgoodr
          · exact hprop p.1 p.2 (hacc p hp))
        (by simp at hbound; omega)
    refine ⟨sF, r :: refs, ?_, hfreshF, by simp; omega, ?_, ?_⟩
    · rw [runStores_cons s c cs' s1 r evs hh, hrun]
      rfl
    · intro p hp
      exact haccF p (List.mem_cons_of_mem _ hp)
    · exact List.Forall₂.cons (haccF (r, c) (List.mem_cons_self _ _)) hfa

theorem handle_flush_good (s : Store) (hfresh : FreshInv s)
    (hbound : s.blob_desc.id < 2 ^ 64)
    (refs : List ChunkRef) (chunks : List (List Nat))
    (hfa : List.Forall₂ (fun r c => Good s r c) refs chunks) :
    ∃ s2 evs, s.handle Msg.Flush = some (s2, .ok .FlushOk, evs)
      ∧ s2.blob_data = []
      ∧ List.Forall₂ (fun r c => Good s2 r c) refs chunks := by
  rw [handle_flush_eq]
  by_cases hd : s.blob_data = []
  · rw [c9_flush_empty_noop s hd]
    exact ⟨s, [], rfl, hd, hfa⟩
  · refine ⟨(s.flush).1, (s.flush).2, rfl, ?_, ?_⟩
    · rw [flush_of_ne_nil s hd]
    · exact hfa.imp (fun r c hg => good_flush s hd hfresh hbound r c hg)

theorem retrieve_good (s : Store) (r : ChunkRef) (c : List Nat)
    (hempty : s.blob_data = []) (hg : Good s r c) :
    s.handle (Msg.Retrieve r) = some (s, .ok (.RetrieveOk c), []) := by
  rcases hg with ⟨hc, ho, hl⟩ | ⟨hcne, hbid, hlen, hrange, hslice⟩
    | ⟨hcne, hlen, blob, hret, hrange, hslice⟩
  · subst hc
    simp [Store.handle, ho, hl]
  · exfalso
    rw [hempty] at hrange
    simp only [List.length_nil, Nat.le_zero] at hrange
    have : c.length ≠ 0 := fun hcl => hcne (List.length_eq_zero.mp hcl)
    omega
  · have hnz : ¬(r.offset = 0 ∧ r.length = 0) := by
      rintro ⟨-, hl0⟩
      rw [hl0] at hlen
      exact hcne (List.length_eq_zero.mp hlen.symm)
    rw [← hslice]
    simp [Store.handle, hnz, hret, hrange]

theorem freshInv_init (maxSize : Nat) : FreshInv (initStore maxSize) :=
  ⟨Nat.le_refl 1, rfl, rfl, fun _ _ h => nomatch h⟩

/-- C1: for every `max_blob_size ≥ 1` and every sequence of chunks (of
any byte values; the count bound reflects that a Rust `Vec` holds fewer
than `2^64 - 2` elements), storing them all, then sending `Flush`,
makes a subsequent `Retrieve` of each returned `ChunkRef` reply
`RetrieveOk` with exactly the originally submitted bytes of that
chunk. -/
theorem c1_identity_after_flush (maxSize : Nat) (chunks : List (List Nat))
    (hmax : 1 ≤ maxSize) (hcount : chunks.length + 2 ≤ 2 ^ 64) :
    ∃ s1 refs s2 evs,
      runStores (initStore maxSize) chunks = some (s1, refs)
      ∧ s1.handle Msg.Flush = some (s2, .ok .FlushOk, evs)
      ∧ List.Forall₂
          (fun r c => s2.handle (Msg.Retrieve r) = some (s2, .ok (.RetrieveOk c), []))
          refs chunks := by
  have hinit : (initStore maxSize).blob_desc.id = 1 := rfl
  obtain ⟨s1, refs, hrun, hfresh1, hid1, -, hfa⟩ :=
    runStores_good chunks (initStore maxSize) [] (freshInv_init maxSize)
      (by intro p hp; cases hp) (by rw [hinit]; omega)
  obtain ⟨s2, evs, hflush, hempty, hfa2⟩ :=
    handle_flush_good s1 hfresh1 (by rw [hinit] at hid1; omega) refs chunks hfa
  exact ⟨s1, refs, s2, evs, hrun, hflush,
    hfa2.imp (fun r c hg => retrieve_good s2 r c hempty hg)⟩

/-- C1 witness: a run in the style of concrete scenario 1 — three chunks
under `max_blob_size = 4`, flushed, each retrievable. -/
theorem c1_identity_after_flush_witness :
    ∃ s1 refs s2 evs,
      runStores (initStore 4) [[1, 2, 3], [], [4, 5, 6, 7, 8]] = some (s1, refs)
      ∧ s1.handle Msg.Flush = some (s2, .ok .FlushOk, evs)
      ∧ List.Forall₂
          (fun r c => s2.handle (Msg.Retrieve r) = some (s2, .ok (.RetrieveOk c), []))
          refs [[1, 2, 3], [], [4, 5, 6, 7, 8]] :=
  c1_identity_after_flush 4 [[1, 2, 3], [], [4, 5, 6, 7, 8]]
    (by norm_num) (by norm_num)

end HatBackup
